import Mathlib

/-!
Verification of the `mount` middleware (src/mount.rs): a path-segment trie
(`SequenceTrie<String, Match>`) mapping mount prefixes to handlers, and the
dispatch algorithm `Mount::handle` that finds the deepest registered prefix
of a request path, rewrites the path, invokes the matched handler and
restores the URL afterwards.

The embedding is shallow: iron's `Url` keeps only the components the code
touches (the segment-sequence `path`; the remaining components are carried
opaquely and restored wholesale, which is what `req.url = original.clone()`
does).  `Request::extensions` is a type-keyed map of which this code uses
exactly one key, `OriginalUrl`, so it is embedded as `Option Url`.  Handlers
are opaque callables `Request → Request × HandleResult`; since a `Mount` is
itself a `Handler`, handlers and tries form one mutual inductive.  A Rust
`panic!` is modelled as the `HandleResult.panicked` outcome, which unwinds:
it propagates through an enclosing dispatch without running the restore code.
-/

namespace MountSpec

/-- The components of an iron `Url` that `Mount::handle` reads or writes:
`path` is the segment sequence (`url.path : Vec<String>`); `scheme`, `host`
and `query` stand for the components the code never touches but clones and
restores as part of the whole `Url` value. -/
structure Url where
  scheme : String
  host : String
  path : List String
  query : Option String
deriving DecidableEq, Repr

/-- An iron `Request` as this middleware sees it: its `url`, and its
`extensions` typemap restricted to the single key the code uses
(`OriginalUrl`, whose value is a `Url`). -/
structure Request where
  url : Url
  extensions : Option Url
deriving DecidableEq, Repr

/-- An opaque response value (`iron::Response`); the fields just make
distinct responses distinguishable. -/
structure Response where
  status : Nat
  body : String
deriving DecidableEq, Repr

/-- The error part of an `IronError`: `NoMatch` is the one error this
middleware originates; `handlerError` stands for any error an inner handler
returns (opaque to the middleware, distinguished by a tag). -/
inductive IronErr : Type where
  | noMatch : IronErr
  | handlerError : Nat → IronErr
deriving DecidableEq, Repr

/-- The outcome of running a handler: `Ok(response)`, `Err(error)`, or a
process abort (`panic!`), which unwinds through callers. -/
inductive HandleResult : Type where
  | ok : Response → HandleResult
  | err : IronErr → HandleResult
  | panicked : String → HandleResult
deriving DecidableEq, Repr

mutual
/-- `iron::Handler`: either an opaque callable (a boxed closure / trait
object, embedded as a Lean function on requests) or a `Mount` instance,
which implements `Handler` itself. -/
inductive Handler : Type where
  | base : (Request → Request × HandleResult) → Handler
  | mount : Mount → Handler

/-- `struct Mount { inner: SequenceTrie<String, Match> }`. -/
inductive Mount : Type where
  | mk : Trie → Mount

/-- `SequenceTrie<String, Match>`: each node holds an optional value and a
map from key fragments to child nodes (embedded as an association list). -/
inductive Trie : Type where
  | node : Option MatchEntry → List (String × Trie) → Trie

/-- `struct Match { handler: Box<Handler>, length: usize }`. -/
inductive MatchEntry : Type where
  | mk : Handler → Nat → MatchEntry
end

def Mount.inner : Mount → Trie
  | .mk t => t

def MatchEntry.handler : MatchEntry → Handler
  | .mk h _ => h

def MatchEntry.length : MatchEntry → Nat
  | .mk _ n => n

def Trie.value : Trie → Option MatchEntry
  | .node v _ => v

def Trie.children : Trie → List (String × Trie)
  | .node _ cs => cs

/-- Lookup in a trie node's child map. -/
def childrenGet : List (String × Trie) → String → Option Trie
  | [], _ => none
  | (k, c) :: rest, s => if k = s then some c else childrenGet rest s

/-- Replace the child bound to a fragment (no-op when the fragment is
absent; `Trie.insert` only calls it on a present fragment). -/
def childrenSet : List (String × Trie) → String → Trie → List (String × Trie)
  | [], _, _ => []
  | (k, c) :: rest, s, c' =>
    if k = s then (k, c') :: rest else (k, c) :: childrenSet rest s c'

/-- `SequenceTrie::new()`. -/
def Trie.new : Trie := .node none []

/-- `SequenceTrie::insert(key, value)`: walks `key`, creating intermediate
nodes as needed, and stores `e` at the final node, replacing any existing
value there. -/
def Trie.insert : Trie → List String → MatchEntry → Trie
  | .node _ cs, [], e => .node (some e) cs
  | .node v cs, k :: ks, e =>
    match childrenGet cs k with
    | some c => .node v (childrenSet cs k (c.insert ks e))
    | none => .node v (cs ++ [(k, Trie.new.insert ks e)])

/-- `SequenceTrie::get_ancestor(key)`: walk down along `key` as far as edges
exist and return the value of the deepest visited node that has one (the
nearest most specific match); `none` when no visited node, the root
included, holds a value. -/
def Trie.get_ancestor : Trie → List String → Option MatchEntry
  | t, [] => t.value
  | t, k :: ks =>
    match childrenGet t.children k with
    | none => t.value
    | some c =>
      match c.get_ancestor ks with
      | some e => some e
      | none => t.value

/-- `SequenceTrie::get(key)`: the value stored at exactly `key`, `none` when
the node is absent or valueless.  Used to state which nodes hold entries. -/
def Trie.get : Trie → List String → Option MatchEntry
  | t, [] => t.value
  | t, k :: ks =>
    match childrenGet t.children k with
    | none => none
    | some c => c.get ks

/-- Split a character list on `'/'`, accumulating the current segment in
reverse; runs of separators produce no segment, exactly as
`Path::components` yields no empty components. -/
def splitSegsAux : List Char → List Char → List String
  | [], seg => if seg = [] then [] else [⟨seg.reverse⟩]
  | c :: cs, seg =>
    if c = '/' then
      if seg = [] then splitSegsAux cs [] else ⟨seg.reverse⟩ :: splitSegsAux cs []
    else splitSegsAux cs (c :: seg)

/-- Whether the route string begins with a root separator (so that
`Path::components` yields a leading `RootDir`). -/
def isAbsolute (route : String) : Bool :=
  match route.toList with
  | '/' :: _ => true
  | _ => false

/-- The route-string normalization in `Mount::mount`:
`Path::new(route).components()` with the `RootDir` component dropped by the
`flat_map`.  `Components` splits on `/`, produces no empty components, and
normalizes `.` away except when it is the first component of a relative
path. -/
def routeKey (route : String) : List String :=
  let comps := splitSegsAux route.toList []
  match comps with
  | [] => []
  | c :: rest =>
    let rest2 := rest.filter (fun s => s ≠ ".")
    if c = "." then (if isAbsolute route then rest2 else "." :: rest2)
    else c :: rest2

/-- `Mount::new()`. -/
def Mount.new : Mount := .mk Trie.new

/-- `Mount::mount(route, handler)`: parse the route into a segment key and
insert `Match { handler, length: key.len() }` into the trie, overwriting any
entry already at that key. -/
def Mount.mount (m : Mount) (route : String) (handler : Handler) : Mount :=
  let key := routeKey route
  .mk (m.inner.insert key (.mk handler key.length))

/-- Lines 87–94 of `Mount::handle`: the lookup key is the request path with
a trailing empty segment (the marker a trailing slash leaves in
`url.path`) removed, so a trailing slash cannot defeat matching. -/
def trimKey (path : List String) : List String :=
  match path.getLast? with
  | some s => if s = "" then path.dropLast else path
  | none => path

/-- Lines 104–117 of `Mount::handle`, the mutations done before the inner
handler runs: if no `OriginalUrl` is attached (this is the outermost mount),
attach a clone of the current URL; then remove the first `len` segments of
the path (`req.url.path = req.url.path[matched.length..].to_vec()`). -/
def enterReq (req : Request) (len : Nat) : Request :=
  let req1 : Request :=
    if req.extensions.isNone then { req with extensions := some req.url } else req
  { req1 with url := { req1.url with path := req1.url.path.drop len } }

/-- Lines 119–131 of `Mount::handle`, run after the inner handler returns
with state `req` and result `res`: restore `req.url` from the `OriginalUrl`
attachment (aborting when it is unexpectedly gone), remove the attachment
when this invocation was the outermost mount, and pass `res` through
verbatim.  A panic of the inner handler unwinds: none of this runs. -/
def afterHandler (is_outer_mount : Bool) : Request × HandleResult → Request × HandleResult
  | (req, res) =>
    match res with
    | .panicked msg => (req, .panicked msg)
    | _ =>
      match req.extensions with
      | some original =>
        let req2 : Request := { req with url := original }
        let req3 : Request :=
          if is_outer_mount then { req2 with extensions := none } else req2
        (req3, res)
      | none => (req, .panicked "OriginalUrl unexpectedly removed from req.extensions.")

/-- `Handler::handle`.  A base handler is its own function; `Mount::handle`
(lines 81–131) looks up the nearest most specific match for the
trailing-slash-trimmed path, returns `Err(NoMatch)` when there is none, and
otherwise runs the fixups of `enterReq`, the matched inner handler, and the
fixups of `afterHandler`. -/
def handle : Handler → Request → Request × HandleResult
  | .base f, req => f req
  | .mount m, req =>
    match hm : m.inner.get_ancestor (trimKey req.url.path) with
    | none => (req, .err .noMatch)
    | some matched =>
      afterHandler req.extensions.isNone
        (handle matched.handler (enterReq req matched.length))
termination_by h _ => sizeOf h
decreasing_by
  have hchild : ∀ (cs : List (String × Trie)) (k : String) (c : Trie),
      childrenGet cs k = some c → sizeOf c < sizeOf cs := by
    intro cs
    induction cs with
    | nil => intro k c hc; simp [childrenGet] at hc
    | cons p rest ih =>
      intro k c hc
      cases p with
      | mk k2 c2 =>
        simp only [childrenGet] at hc
        by_cases hk : k2 = k
        · rw [if_pos hk] at hc
          cases hc
          simp
          omega
        · rw [if_neg hk] at hc
          have := ih k c hc
          simp
          omega
  have hga : ∀ (key : List String) (t : Trie) (e : MatchEntry),
      t.get_ancestor key = some e → sizeOf e < sizeOf t := by
    intro key
    induction key with
    | nil =>
      intro t e hx
      cases t with
      | node v cs =>
        simp only [Trie.get_ancestor, Trie.value] at hx
        subst hx
        simp
        omega
    | cons k ks ih =>
      intro t e hx
      cases t with
      | node v cs =>
        simp only [Trie.get_ancestor, Trie.children, Trie.value] at hx
        cases hcg : childrenGet cs k with
        | none =>
          rw [hcg] at hx
          simp only [Trie.value] at hx
          subst hx
          simp
          omega
        | some c =>
          rw [hcg] at hx
          dsimp only at hx
          have hcs := hchild cs k c hcg
          cases hgc : c.get_ancestor ks with
          | none =>
            rw [hgc] at hx
            simp only [Trie.value] at hx
            subst hx
            simp
            omega
          | some e2 =>
            rw [hgc] at hx
            simp only [Option.some.injEq] at hx
            subst hx
            have := ih c e2 hgc
            simp
            omega
  have h1 := hga _ _ _ hm
  cases matched with
  | mk hh nn =>
    cases m with
    | mk t =>
      simp only [MatchEntry.handler, Mount.inner] at h1 ⊢
      simp at h1 ⊢
      omega

/-- A handler is well behaved when every opaque base handler reachable
through it leaves the `OriginalUrl` attachment alone and never panics: the
standing assumption of the middleware, whose own state management is the
only component meant to touch `OriginalUrl`. -/
inductive GoodHandler : Handler → Prop where
  | base : ∀ (f : Request → Request × HandleResult),
      (∀ req, (f req).1.extensions = req.extensions ∧
        ∀ msg, (f req).2 ≠ .panicked msg) →
      GoodHandler (.base f)
  | mount : ∀ (m : Mount),
      (∀ key e, m.inner.get_ancestor key = some e → GoodHandler e.handler) →
      GoodHandler (.mount m)

/-! Concrete instances used by the counterexamples and witnesses.  The probe
handlers report which handler ran (in the response status) and what path it
observed (in the response body, or as a numeric error tag carrying the
observed path's length). -/

/-- Probe handler 1: reports status 1 and the observed path. -/
def fX1 : Request → Request × HandleResult :=
  fun r => (r, .ok ⟨1, String.intercalate "/" r.url.path⟩)

/-- Probe handler 2: reports status 2 and the observed path. -/
def fX2 : Request → Request × HandleResult :=
  fun r => (r, .ok ⟨2, String.intercalate "/" r.url.path⟩)

def hX1 : Handler := .base fX1

def hX2 : Handler := .base fX2

/-- Overlapping registrations `/a` and `/a/b` (the spec's R1/R2 scenario). -/
def mDeep : Mount := (Mount.new.mount "/a" hX1).mount "/a/b" hX2

def urlABC : Url := ⟨"http", "localhost", ["a", "b", "c"], none⟩

def reqABC : Request := ⟨urlABC, none⟩

def urlAX : Url := ⟨"http", "localhost", ["a", "x"], none⟩

def reqAX : Request := ⟨urlAX, none⟩

def urlAB : Url := ⟨"http", "localhost", ["a", "b"], none⟩

def reqAB : Request := ⟨urlAB, none⟩

/-- Probe handler reporting the length of the path it observes as an error
tag. -/
def fLen : Request → Request × HandleResult :=
  fun r => (r, .err (.handlerError r.url.path.length))

def hLen : Handler := .base fLen

def mTrail : Mount := Mount.new.mount "/testing" hLen

def reqTrail : Request := ⟨⟨"http", "localhost", ["testing", ""], none⟩, none⟩

/-- An innermost handler that touches nothing. -/
def fDeep : Request → Request × HandleResult := fun r => (r, .ok ⟨7, "deep"⟩)

def hDeep : Handler := .base fDeep

/-- Inner mount: `/b` inside it. -/
def mInner3 : Mount := Mount.new.mount "/b" hDeep

/-- Outer mount: `/a` bound to the inner mount (mount-in-mount nesting). -/
def mOuter3 : Mount := Mount.new.mount "/a" (.mount mInner3)

def req3x : Request := ⟨urlABC, none⟩

/-- The exact request state the outer dispatch of `req3x` hands to the
nested dispatcher: path truncated to `["b", "c"]`, `OriginalUrl` attached. -/
def reqMid3 : Request := ⟨⟨"http", "localhost", ["b", "c"], none⟩, some urlABC⟩

def reqB : Request := ⟨⟨"http", "localhost", ["b"], none⟩, none⟩

def reqZ : Request := ⟨⟨"http", "localhost", ["zzz"], none⟩, none⟩

/-- A misbehaving handler that strips the `OriginalUrl` attachment. -/
def fClear : Request → Request × HandleResult :=
  fun r => ({ r with extensions := none }, .ok ⟨0, "cleared"⟩)

def hClear : Handler := .base fClear

def mClear : Mount := Mount.new.mount "/a" hClear

def reqClear : Request := ⟨⟨"http", "localhost", ["a"], none⟩, none⟩

/-- A URL unrelated to the requests below. -/
def urlOther : Url := ⟨"http", "elsewhere", ["m"], none⟩

/-- A handler that itself returns `NoMatch` — the `NoMatch` type is public,
so any handler may construct it (a nested `Mount` does exactly that) — and
also tampers with the attachment slot before returning. -/
def fNoMatchMut : Request → Request × HandleResult :=
  fun r => ({ r with extensions := some urlOther }, .err .noMatch)

def hNoMatchMut : Handler := .base fNoMatchMut

def mNoMatchMut : Mount := Mount.new.mount "/a" hNoMatchMut

def reqAQ : Request := ⟨⟨"http", "localhost", ["a", "q"], none⟩, none⟩

/-! ## Unfolding lemmas for `handle` and its two fixup phases -/

theorem handle_base (f : Request → Request × HandleResult) (req : Request) :
    handle (.base f) req = f req := by
  rw [handle.eq_def]

theorem handle_mount_nomatch (m : Mount) (req : Request)
    (h : m.inner.get_ancestor (trimKey req.url.path) = none) :
    handle (.mount m) req = (req, .err .noMatch) := by
  rw [handle.eq_def]
  dsimp only
  split
  · rfl
  · rename_i matched heq
    rw [h] at heq
    cases heq

theorem handle_mount_matched (m : Mount) (req : Request) (e : MatchEntry)
    (hm : m.inner.get_ancestor (trimKey req.url.path) = some e) :
    handle (.mount m) req =
      afterHandler req.extensions.isNone
        (handle e.handler (enterReq req e.length)) := by
  rw [handle.eq_def]
  dsimp only
  split
  · rename_i heq
    rw [hm] at heq
    cases heq
  · rename_i matched heq
    rw [hm] at heq
    cases heq
    rfl

theorem enterReq_eq (req : Request) (len : Nat) :
    enterReq req len =
      { url := { req.url with path := req.url.path.drop len },
        extensions :=
          if req.extensions.isNone then some req.url else req.extensions } := by
  unfold enterReq
  by_cases h : req.extensions.isNone <;> simp [h]

theorem afterHandler_panicked (io : Bool) (r : Request) (msg : String) :
    afterHandler io (r, .panicked msg) = (r, .panicked msg) := rfl

theorem afterHandler_some (io : Bool) (r : Request) (res : HandleResult)
    (hnp : ∀ msg, res ≠ .panicked msg) (o : Url) (hro : r.extensions = some o) :
    afterHandler io (r, res) =
      (if io then { r with url := o, extensions := none }
       else { r with url := o }, res) := by
  cases res with
  | panicked msg => exact absurd rfl (hnp msg)
  | ok resp => simp [afterHandler, hro]
  | err e => simp [afterHandler, hro]

theorem afterHandler_missing (io : Bool) (r : Request) (res : HandleResult)
    (hnp : ∀ msg, res ≠ .panicked msg) (hro : r.extensions = none) :
    afterHandler io (r, res) =
      (r, .panicked "OriginalUrl unexpectedly removed from req.extensions.") := by
  cases res with
  | panicked msg => exact absurd rfl (hnp msg)
  | ok resp => simp [afterHandler, hro]
  | err e => simp [afterHandler, hro]

/-! ## Size bookkeeping (the entry returned by `get_ancestor` lives inside
the trie), re-stated as theorems for the strong induction below -/

theorem childrenGet_sizeOf : ∀ (cs : List (String × Trie)) (k : String) (c : Trie),
    childrenGet cs k = some c → sizeOf c < sizeOf cs := by
  intro cs
  induction cs with
  | nil => intro k c hc; simp [childrenGet] at hc
  | cons p rest ih =>
    intro k c hc
    cases p with
    | mk k2 c2 =>
      simp only [childrenGet] at hc
      by_cases hk : k2 = k
      · rw [if_pos hk] at hc
        cases hc
        simp
        omega
      · rw [if_neg hk] at hc
        have := ih k c hc
        simp
        omega

theorem get_ancestor_sizeOf : ∀ (key : List String) (t : Trie) (e : MatchEntry),
    t.get_ancestor key = some e → sizeOf e < sizeOf t := by
  intro key
  induction key with
  | nil =>
    intro t e hx
    cases t with
    | node v cs =>
      simp only [Trie.get_ancestor, Trie.value] at hx
      subst hx
      simp
      omega
  | cons k ks ih =>
    intro t e hx
    cases t with
    | node v cs =>
      simp only [Trie.get_ancestor, Trie.children, Trie.value] at hx
      cases hcg : childrenGet cs k with
      | none =>
        rw [hcg] at hx
        simp only [Trie.value] at hx
        subst hx
        simp
        omega
      | some c =>
        rw [hcg] at hx
        dsimp only at hx
        have hcs := childrenGet_sizeOf cs k c hcg
        cases hgc : c.get_ancestor ks with
        | none =>
          rw [hgc] at hx
          simp only [Trie.value] at hx
          subst hx
          simp
          omega
        | some e2 =>
          rw [hgc] at hx
          simp only [Option.some.injEq] at hx
          subst hx
          have := ih c e2 hgc
          simp
          omega

theorem matchEntry_handler_sizeOf (e : MatchEntry) : sizeOf e.handler < sizeOf e := by
  cases e with
  | mk h n =>
    simp [MatchEntry.handler]
    omega

/-! ## What `get_ancestor` returns: the deepest visited node with a value -/

theorem get_ancestor_none_get : ∀ (key : List String) (t : Trie),
    t.get_ancestor key = none → ∀ p, p <+: key → t.get p = none := by
  intro key
  induction key with
  | nil =>
    intro t h p hp
    rw [List.prefix_nil.mp hp]
    cases t with
    | node v cs =>
      simp only [Trie.get, Trie.value]
      simpa [Trie.get_ancestor, Trie.value] using h
  | cons k ks ih =>
    intro t h p hp
    cases t with
    | node v cs =>
      simp only [Trie.get_ancestor, Trie.children, Trie.value] at h
      cases hcg : childrenGet cs k with
      | none =>
        rw [hcg] at h
        cases p with
        | nil => simpa [Trie.get, Trie.value] using h
        | cons a as =>
          obtain ⟨rfl, has⟩ := List.cons_prefix_cons.mp hp
          simp [Trie.get, Trie.children, hcg]
      | some c =>
        rw [hcg] at h
        dsimp only at h
        cases hga : c.get_ancestor ks with
        | none =>
          rw [hga] at h
          cases p with
          | nil => simpa [Trie.get, Trie.value] using h
          | cons a as =>
            obtain ⟨rfl, has⟩ := List.cons_prefix_cons.mp hp
            simp only [Trie.get, Trie.children, hcg]
            exact ih c hga as has
        | some e2 =>
          rw [hga] at h
          cases h

theorem get_ancestor_deepest : ∀ (key : List String) (t : Trie) (e : MatchEntry),
    t.get_ancestor key = some e →
    ∃ p, p <+: key ∧ t.get p = some e ∧
      ∀ q, q <+: key → p.length < q.length → t.get q = none := by
  intro key
  induction key with
  | nil =>
    intro t e h
    cases t with
    | node v cs =>
      refine ⟨[], List.nil_prefix, ?_, ?_⟩
      · simp only [Trie.get, Trie.value]
        simpa [Trie.get_ancestor, Trie.value] using h
      · intro q hq hlen
        rw [List.prefix_nil.mp hq] at hlen
        simp at hlen
  | cons k ks ih =>
    intro t e h
    cases t with
    | node v cs =>
      simp only [Trie.get_ancestor, Trie.children, Trie.value] at h
      cases hcg : childrenGet cs k with
      | none =>
        rw [hcg] at h
        refine ⟨[], List.nil_prefix, ?_, ?_⟩
        · simp only [Trie.get, Trie.value]
          simpa using h
        · intro q hq hlen
          cases q with
          | nil => simp at hlen
          | cons a as =>
            obtain ⟨rfl, has⟩ := List.cons_prefix_cons.mp hq
            simp [Trie.get, Trie.children, hcg]
      | some c =>
        rw [hcg] at h
        dsimp only at h
        cases hga : c.get_ancestor ks with
        | none =>
          rw [hga] at h
          refine ⟨[], List.nil_prefix, ?_, ?_⟩
          · simp only [Trie.get, Trie.value]
            simpa using h
          · intro q hq hlen
            cases q with
            | nil => simp at hlen
            | cons a as =>
              obtain ⟨rfl, has⟩ := List.cons_prefix_cons.mp hq
              simp only [Trie.get, Trie.children, hcg]
              exact get_ancestor_none_get ks c hga as has
        | some e2 =>
          rw [hga] at h
          injection h with h
          subst h
          obtain ⟨p, hp, hget, hmax⟩ := ih c e2 hga
          refine ⟨k :: p, List.cons_prefix_cons.mpr ⟨rfl, hp⟩, ?_, ?_⟩
          · simpa [Trie.get, Trie.children, hcg] using hget
          · intro q hq hlen
            cases q with
            | nil => simp at hlen
            | cons a as =>
              obtain ⟨rfl, has⟩ := List.cons_prefix_cons.mp hq
              simp only [Trie.get, Trie.children, hcg]
              refine hmax as has ?_
              simpa using hlen

theorem get_ancestor_none_iff (t : Trie) (key : List String) :
    t.get_ancestor key = none ↔ ∀ p, p <+: key → t.get p = none := by
  constructor
  · exact get_ancestor_none_get key t
  · intro hall
    cases hga : t.get_ancestor key with
    | none => rfl
    | some e =>
      obtain ⟨p, hp, hget, -⟩ := get_ancestor_deepest key t e hga
      rw [hall p hp] at hget
      cases hget

/-! ## The extension invariant: under well-behaved handlers, every dispatch
restores the `OriginalUrl` attachment to its entry value and never hits the
panic branch -/

theorem handle_good : ∀ (n : Nat) (h : Handler), sizeOf h ≤ n → GoodHandler h →
    ∀ req : Request,
      (handle h req).1.extensions = req.extensions ∧
      ∀ msg, (handle h req).2 ≠ .panicked msg := by
  intro n
  induction n with
  | zero =>
    intro h hle
    exfalso
    cases h <;> simp at hle
  | succ n ih =>
    intro h hle hg req
    cases h with
    | base f =>
      rw [handle_base]
      cases hg with
      | base f2 hf => exact hf req
    | mount m =>
      cases hma : m.inner.get_ancestor (trimKey req.url.path) with
      | none =>
        rw [handle_mount_nomatch m req hma]
        exact ⟨rfl, fun msg hcon => by cases hcon⟩
      | some matched =>
        have hgm : GoodHandler matched.handler := by
          cases hg with
          | mount m2 hall => exact hall _ _ hma
        have hlt : sizeOf matched.handler < sizeOf (Handler.mount m) := by
          have h1 := get_ancestor_sizeOf _ _ _ hma
          have h2 := matchEntry_handler_sizeOf matched
          cases m with
          | mk t =>
            simp only [Mount.inner] at h1
            simp at h1 ⊢
            omega
        have hszm : sizeOf matched.handler ≤ n := by omega
        have ihm := ih matched.handler hszm hgm (enterReq req matched.length)
        rw [handle_mount_matched m req matched hma]
        rcases hres : handle matched.handler (enterReq req matched.length) with ⟨r3, res⟩
        rw [hres] at ihm
        obtain ⟨ihm1, ihm2⟩ := ihm
        simp only at ihm1 ihm2
        cases hre : req.extensions with
        | none =>
          have hr3 : r3.extensions = some req.url := by
            rw [ihm1, enterReq_eq]
            simp [hre]
          rw [afterHandler_some _ _ _ ihm2 _ hr3]
          refine ⟨by simp, fun msg => ?_⟩
          simp only
          exact ihm2 msg
        | some u =>
          have hr3 : r3.extensions = some u := by
            rw [ihm1, enterReq_eq]
            simp [hre]
          rw [afterHandler_some _ _ _ ihm2 _ hr3]
          refine ⟨by simp [hr3], fun msg => ?_⟩
          simp only
          exact ihm2 msg

/-! ## Re-insertion at the same key replaces the entry (last write wins) -/

theorem childrenGet_childrenSet (cs : List (String × Trie)) (k : String) (c c' : Trie)
    (h : childrenGet cs k = some c) :
    childrenGet (childrenSet cs k c') k = some c' := by
  induction cs with
  | nil => simp [childrenGet] at h
  | cons p rest ih =>
    cases p with
    | mk k2 c2 =>
      simp only [childrenGet, childrenSet] at h ⊢
      by_cases hk : k2 = k
      · simp [hk, childrenGet]
      · simp only [if_neg hk] at h ⊢
        simp only [childrenGet]
        rw [if_neg hk]
        exact ih h

theorem childrenSet_childrenSet (cs : List (String × Trie)) (k : String) (x y : Trie) :
    childrenSet (childrenSet cs k x) k y = childrenSet cs k y := by
  induction cs with
  | nil => rfl
  | cons p rest ih =>
    cases p with
    | mk k2 c2 =>
      by_cases hk : k2 = k
      · simp [childrenSet, hk]
      · simp [childrenSet, hk, ih]

theorem childrenGet_append_none (cs : List (String × Trie)) (k : String) (x : Trie)
    (h : childrenGet cs k = none) :
    childrenGet (cs ++ [(k, x)]) k = some x := by
  induction cs with
  | nil => simp [childrenGet]
  | cons p rest ih =>
    cases p with
    | mk k2 c2 =>
      simp only [childrenGet] at h
      by_cases hk : k2 = k
      · rw [if_pos hk] at h
        cases h
      · rw [if_neg hk] at h
        simp only [List.cons_append, childrenGet]
        rw [if_neg hk]
        exact ih h

theorem childrenSet_append_none (cs : List (String × Trie)) (k : String) (x y : Trie)
    (h : childrenGet cs k = none) :
    childrenSet (cs ++ [(k, x)]) k y = cs ++ [(k, y)] := by
  induction cs with
  | nil => simp [childrenSet]
  | cons p rest ih =>
    cases p with
    | mk k2 c2 =>
      simp only [childrenGet] at h
      by_cases hk : k2 = k
      · rw [if_pos hk] at h
        cases h
      · rw [if_neg hk] at h
        simp only [List.cons_append, childrenSet]
        rw [if_neg hk]
        exact congrArg (fun l => (k2, c2) :: l) (ih h)

theorem insert_insert : ∀ (key : List String) (t : Trie) (e1 e2 : MatchEntry),
    (t.insert key e1).insert key e2 = t.insert key e2 := by
  intro key
  induction key with
  | nil =>
    intro t e1 e2
    cases t with
    | node v cs => rfl
  | cons k ks ih =>
    intro t e1 e2
    cases t with
    | node v cs =>
      cases hcg : childrenGet cs k with
      | some c =>
        have h1 : (Trie.node v cs).insert (k :: ks) e1
            = .node v (childrenSet cs k (c.insert ks e1)) := by
          simp [Trie.insert, hcg]
        have h4 : (Trie.node v cs).insert (k :: ks) e2
            = .node v (childrenSet cs k (c.insert ks e2)) := by
          simp [Trie.insert, hcg]
        have h2 := childrenGet_childrenSet cs k c (c.insert ks e1) hcg
        have h3 : (Trie.node v (childrenSet cs k (c.insert ks e1))).insert (k :: ks) e2
            = .node v (childrenSet (childrenSet cs k (c.insert ks e1)) k
                ((c.insert ks e1).insert ks e2)) := by
          simp [Trie.insert, h2]
        rw [h1, h3, ih, childrenSet_childrenSet, h4]
      | none =>
        have h1 : (Trie.node v cs).insert (k :: ks) e1
            = .node v (cs ++ [(k, Trie.new.insert ks e1)]) := by
          simp [Trie.insert, hcg]
        have h4 : (Trie.node v cs).insert (k :: ks) e2
            = .node v (cs ++ [(k, Trie.new.insert ks e2)]) := by
          simp [Trie.insert, hcg]
        have h2 := childrenGet_append_none cs k (Trie.new.insert ks e1) hcg
        have h3 : (Trie.node v (cs ++ [(k, Trie.new.insert ks e1)])).insert (k :: ks) e2
            = .node v (childrenSet (cs ++ [(k, Trie.new.insert ks e1)]) k
                ((Trie.new.insert ks e1).insert ks e2)) := by
          simp [Trie.insert, h2]
        rw [h1, h3, ih, childrenSet_append_none cs k _ _ hcg, h4]

theorem get_insert : ∀ (key : List String) (t : Trie) (e : MatchEntry),
    (t.insert key e).get key = some e := by
  intro key
  induction key with
  | nil =>
    intro t e
    cases t with
    | node v cs => rfl
  | cons k ks ih =>
    intro t e
    cases t with
    | node v cs =>
      cases hcg : childrenGet cs k with
      | some c =>
        have h1 : (Trie.node v cs).insert (k :: ks) e
            = .node v (childrenSet cs k (c.insert ks e)) := by
          simp [Trie.insert, hcg]
        rw [h1]
        simp only [Trie.get, Trie.children]
        rw [childrenGet_childrenSet cs k c (c.insert ks e) hcg]
        exact ih c e
      | none =>
        have h1 : (Trie.node v cs).insert (k :: ks) e
            = .node v (cs ++ [(k, Trie.new.insert ks e)]) := by
          simp [Trie.insert, hcg]
        rw [h1]
        simp only [Trie.get, Trie.children]
        rw [childrenGet_append_none cs k (Trie.new.insert ks e) hcg]
        exact ih Trie.new e

/-! ## Route keys contain no empty segment, so a trailing slash can only be
the request's doing -/

theorem splitSegsAux_ne_empty : ∀ (l seg : List Char), ∀ s ∈ splitSegsAux l seg, s ≠ "" := by
  intro l
  induction l with
  | nil =>
    intro seg s hs
    simp only [splitSegsAux] at hs
    split at hs
    · simp at hs
    · rename_i hseg
      simp at hs
      subst hs
      intro hcon
      apply hseg
      have h2 : (⟨seg.reverse⟩ : String) = ⟨[]⟩ := hcon
      injection h2 with h2
      simpa using h2
  | cons c cs ih =>
    intro seg s hs
    simp only [splitSegsAux] at hs
    split at hs
    · split at hs
      · exact ih [] s hs
      · rename_i hseg
        rw [List.mem_cons] at hs
        cases hs with
        | inl h =>
          subst h
          intro hcon
          apply hseg
          have h2 : (⟨seg.reverse⟩ : String) = ⟨[]⟩ := hcon
          injection h2 with h2
          simpa using h2
        | inr h => exact ih [] s h
    · exact ih (c :: seg) s hs

theorem routeKey_ne_empty (route : String) : ∀ s ∈ routeKey route, s ≠ "" := by
  intro s hs
  unfold routeKey at hs
  cases hcomps : splitSegsAux route.toList [] with
  | nil =>
    rw [hcomps] at hs
    simp at hs
  | cons c rest =>
    rw [hcomps] at hs
    dsimp only at hs
    have hcne : c ≠ "" :=
      splitSegsAux_ne_empty route.toList [] c (by rw [hcomps]; exact List.mem_cons_self c rest)
    have hrest : ∀ x ∈ rest.filter (fun t => t ≠ "."), x ≠ "" := by
      intro x hx
      have hx2 := (List.mem_filter.mp hx).1
      exact splitSegsAux_ne_empty route.toList [] x
        (by rw [hcomps]; exact List.mem_cons_of_mem c hx2)
    by_cases hc : c = "."
    · rw [if_pos hc] at hs
      by_cases habs : isAbsolute route
      · rw [if_pos habs] at hs
        exact hrest s hs
      · rw [if_neg habs] at hs
        rw [List.mem_cons] at hs
        cases hs with
        | inl h => subst h; decide
        | inr h => exact hrest s h
    · rw [if_neg hc] at hs
      rw [List.mem_cons] at hs
      cases hs with
      | inl h => subst h; exact hcne
      | inr h => exact hrest s h

theorem trimKey_concat_empty (p : List String) : trimKey (p ++ [""]) = p := by
  simp [trimKey, List.getLast?_concat, List.dropLast_concat]

theorem trimKey_no_empty (p : List String) (h : ∀ s ∈ p, s ≠ "") : trimKey p = p := by
  unfold trimKey
  cases hl : p.getLast? with
  | none => rfl
  | some s =>
    have hmem : s ∈ p := by
      have hin : s ∈ p.getLast? := by rw [hl]; exact rfl
      obtain ⟨hne, heq⟩ := List.mem_getLast?_eq_getLast hin
      rw [heq]
      exact List.getLast_mem hne
    dsimp only
    rw [if_neg (h s hmem)]

/-! ## Well-behavedness of the concrete example tables -/

theorem good_mInner3 : GoodHandler (.mount mInner3) := by
  refine GoodHandler.mount mInner3 ?_
  intro key e h
  have ht : mInner3.inner = Trie.node none [("b", Trie.node (some (.mk hDeep 1)) [])] := rfl
  rw [ht] at h
  have he : e = .mk hDeep 1 := by
    cases key with
    | nil => simp [Trie.get_ancestor, Trie.value] at h
    | cons k ks =>
      simp only [Trie.get_ancestor, Trie.children, Trie.value, childrenGet] at h
      by_cases hk : ("b" : String) = k
      · rw [if_pos hk] at h
        dsimp only at h
        cases ks with
        | nil =>
          simp [Trie.get_ancestor, Trie.value] at h
          exact h.symm
        | cons k2 ks2 =>
          simp [Trie.get_ancestor, Trie.children, Trie.value, childrenGet] at h
          exact h.symm
      · rw [if_neg hk] at h
        cases h
  subst he
  show GoodHandler hDeep
  exact GoodHandler.base fDeep (fun req => ⟨rfl, fun msg hcon => by cases hcon⟩)

theorem good_mOuter3 : GoodHandler (.mount mOuter3) := by
  refine GoodHandler.mount mOuter3 ?_
  intro key e h
  have ht : mOuter3.inner
      = Trie.node none [("a", Trie.node (some (.mk (.mount mInner3) 1)) [])] := rfl
  rw [ht] at h
  have he : e = .mk (.mount mInner3) 1 := by
    cases key with
    | nil => simp [Trie.get_ancestor, Trie.value] at h
    | cons k ks =>
      simp only [Trie.get_ancestor, Trie.children, Trie.value, childrenGet] at h
      by_cases hk : ("a" : String) = k
      · rw [if_pos hk] at h
        dsimp only at h
        cases ks with
        | nil =>
          simp [Trie.get_ancestor, Trie.value] at h
          exact h.symm
        | cons k2 ks2 =>
          simp [Trie.get_ancestor, Trie.children, Trie.value, childrenGet] at h
          exact h.symm
      · rw [if_neg hk] at h
        cases h
  subst he
  show GoodHandler (.mount mInner3)
  exact good_mInner3

/-! ## The claims -/

/-- C10 counterexample: not every dispatch that returns `NoMatch` leaves
the request untouched with no handler invoked — only the dispatcher's own
no-match branch does.  A matched handler may itself return the public
`NoMatch` error (a nested `Mount` does exactly that), and then the path was
rewritten and `OriginalUrl` attached before the handler ran, as the second
conjuncts exhibit; here the matched handler also tampers with the
attachment slot, so the dispatch returns `NoMatch` with the request
visibly changed, against the claim's "left completely unchanged". -/
theorem nomatch_not_atomic_cex :
    handle (.mount mNoMatchMut) reqAQ = (⟨urlOther, none⟩, .err .noMatch)
    ∧ (⟨urlOther, none⟩ : Request) ≠ reqAQ
    ∧ enterReq reqAQ 1 = ⟨⟨"http", "localhost", ["q"], none⟩, some reqAQ.url⟩ := by
  have h1 : handle (.mount mNoMatchMut) reqAQ = (⟨urlOther, none⟩, .err .noMatch) := by
    rw [handle_mount_matched mNoMatchMut reqAQ (.mk hNoMatchMut 1) rfl,
        show (MatchEntry.mk hNoMatchMut 1).handler = Handler.base fNoMatchMut from rfl,
        show (MatchEntry.mk hNoMatchMut 1).length = 1 from rfl,
        handle_base]
    rfl
  exact ⟨h1, by decide, rfl⟩

/-- C10 (amended): a dispatch that returns `NoMatch` from the dispatcher's
own no-match branch — when no registered key is a prefix of the trimmed
request path — returns `Err(NoMatch)` with the request exactly as it was
handed in: the error return precedes the `OriginalUrl` attachment and the
path rewrite, and no handler runs (the result does not depend on any
handler stored in the table). -/
theorem no_match_leaves_request_untouched (m : Mount) (req : Request)
    (h : m.inner.get_ancestor (trimKey req.url.path) = none) :
    handle (.mount m) req = (req, .err .noMatch) :=
  handle_mount_nomatch m req h

/-- C10 witness: the request for `/zzz` against the table holding only `/b`. -/
theorem no_match_leaves_request_untouched_witness :
    handle (.mount mInner3) reqZ = (reqZ, .err .noMatch) :=
  no_match_leaves_request_untouched mInner3 reqZ rfl

/-- C1 (amended): when the lookup on the trimmed request path returns the
entry registered for a route with handler `f` and key length `len` — that
is, when that route is the deepest registered prefix of the path — dispatch
invokes exactly `f`, and `f` observes the request path with its first `len`
segments removed: the empty sequence when the path length equals `len`
(in particular when the path equals the route's key exactly), while a
trailing separator leaves its empty marker segment in the remainder. -/
theorem matched_handler_observes_remainder (m : Mount)
    (f : Request → Request × HandleResult) (len : Nat) (req : Request)
    (hm : m.inner.get_ancestor (trimKey req.url.path) = some (.mk (.base f) len)) :
    handle (.mount m) req = afterHandler req.extensions.isNone (f (enterReq req len))
    ∧ (enterReq req len).url.path = req.url.path.drop len
    ∧ (req.url.path.length = len → (enterReq req len).url.path = []) := by
  refine ⟨?_, ?_, ?_⟩
  · rw [handle_mount_matched m req (.mk (.base f) len) hm,
        show (MatchEntry.mk (.base f) len).handler = Handler.base f from rfl,
        show (MatchEntry.mk (.base f) len).length = len from rfl,
        handle_base]
  · rw [enterReq_eq]
  · intro hlen
    rw [enterReq_eq]
    simp only
    rw [← hlen, List.drop_length]

/-- C1 witness: route `/b`, request path `["b"]`. -/
theorem matched_handler_observes_remainder_witness :
    (handle (.mount mInner3) reqB
        = afterHandler reqB.extensions.isNone (fDeep (enterReq reqB 1))
     ∧ (enterReq reqB 1).url.path = reqB.url.path.drop 1
     ∧ (reqB.url.path.length = 1 → (enterReq reqB 1).url.path = [])) :=
  matched_handler_observes_remainder mInner3 fDeep 1 reqB rfl

/-- C1 counterexample: the claim quantifies over every registered route
whose key prefixes the request path, but dispatch follows only the deepest
one — with `/a` (handler 1, probe reports status 1) and `/a/b` (handler 2)
both registered, the request `["a","b"]` starts with `/a`'s key yet yields
handler 2's response with observed remainder `""`, not handler 1's with
remainder `"b"`.  And net of a trailing separator the observed path is not
empty: with `/testing` registered, the request `["testing", ""]` (that is,
`/testing/`) leaves the handler observing the one-element path `[""]`
(length 1), not the empty sequence (length 0). -/
theorem deeper_match_and_trailing_slash_cex :
    handle (.mount mDeep) reqAB = (reqAB, .ok ⟨2, ""⟩)
    ∧ handle (.mount mDeep) reqAB ≠ (reqAB, .ok ⟨1, "b"⟩)
    ∧ handle (.mount mTrail) reqTrail = (reqTrail, .err (.handlerError 1))
    ∧ handle (.mount mTrail) reqTrail ≠ (reqTrail, .err (.handlerError 0)) := by
  have h1 : handle (.mount mDeep) reqAB = (reqAB, .ok ⟨2, ""⟩) := by
    rw [handle_mount_matched mDeep reqAB (.mk hX2 2) rfl,
        show (MatchEntry.mk hX2 2).handler = Handler.base fX2 from rfl,
        show (MatchEntry.mk hX2 2).length = 2 from rfl,
        handle_base]
    rfl
  have h2 : handle (.mount mTrail) reqTrail = (reqTrail, .err (.handlerError 1)) := by
    rw [handle_mount_matched mTrail reqTrail (.mk hLen 1) rfl,
        show (MatchEntry.mk hLen 1).handler = Handler.base fLen from rfl,
        show (MatchEntry.mk hLen 1).length = 1 from rfl,
        handle_base]
    rfl
  refine ⟨h1, ?_, h2, ?_⟩
  · rw [h1]
    decide
  · rw [h2]
    decide

/-- C2: the lookup returns the entry of the deepest registered ancestor,
never a shallower one — some prefix `p` of the looked-up key holds exactly
the returned entry, and every strictly longer prefix of the key holds no
entry.  Concretely, with `/a` (handler 1) and `/a/b` (handler 2)
registered, `/a/b/c` dispatches to handler 2 with remaining path `c`, and
`/a/x` dispatches to handler 1 with remaining path `x` (the probes report
their identity in the status and the observed path in the body). -/
theorem deepest_ancestor_wins :
    (∀ (t : Trie) (key : List String) (e : MatchEntry),
        t.get_ancestor key = some e →
        ∃ p, p <+: key ∧ t.get p = some e ∧
          ∀ q, q <+: key → p.length < q.length → t.get q = none)
    ∧ handle (.mount mDeep) reqABC = (reqABC, .ok ⟨2, "c"⟩)
    ∧ handle (.mount mDeep) reqAX = (reqAX, .ok ⟨1, "x"⟩) := by
  refine ⟨fun t key e h => get_ancestor_deepest key t e h, ?_, ?_⟩
  · rw [handle_mount_matched mDeep reqABC (.mk hX2 2) rfl,
        show (MatchEntry.mk hX2 2).handler = Handler.base fX2 from rfl,
        show (MatchEntry.mk hX2 2).length = 2 from rfl,
        handle_base]
    rfl
  · rw [handle_mount_matched mDeep reqAX (.mk hX1 1) rfl,
        show (MatchEntry.mk hX1 1).handler = Handler.base fX1 from rfl,
        show (MatchEntry.mk hX1 1).length = 1 from rfl,
        handle_base]
    rfl

/-- C3 counterexample: the round-trip property fails for nested
(non-outermost) dispatch invocations.  With `/a` bound to an inner mount
that binds `/b`, dispatching `["a","b","c"]` through the outer mount hands
the nested dispatcher exactly `reqMid3` (path `["b","c"]`, `OriginalUrl`
attached); that nested dispatch finds a match and returns with the request
URL set to the full original `/a/b/c` — not to its own pre-dispatch value
whose path was `["b","c"]`. -/
theorem nested_dispatch_no_roundtrip_cex :
    mOuter3.inner.get_ancestor (trimKey req3x.url.path) = some (.mk (.mount mInner3) 1)
    ∧ enterReq req3x 1 = reqMid3
    ∧ (handle (.mount mInner3) reqMid3).1.url ≠ reqMid3.url
    ∧ (handle (.mount mInner3) reqMid3).1.url = urlABC := by
  have h1 : handle (.mount mInner3) reqMid3
      = (⟨urlABC, some urlABC⟩, .ok ⟨7, "deep"⟩) := by
    rw [handle_mount_matched mInner3 reqMid3 (.mk hDeep 1) rfl,
        show (MatchEntry.mk hDeep 1).handler = Handler.base fDeep from rfl,
        show (MatchEntry.mk hDeep 1).length = 1 from rfl,
        handle_base]
    rfl
  refine ⟨rfl, rfl, ?_, ?_⟩
  · rw [h1]
    decide
  · rw [h1]

/-- C3 (amended): an outermost dispatch — one entered with no `OriginalUrl`
attached — over well-behaved handlers returns with the request equal to its
pre-dispatch value exactly (URL included), whether the matched handler
succeeded or failed, and also when nothing matched.  A nested matched
dispatch instead returns with the URL equal to the `OriginalUrl` attachment
(the outermost original), which it leaves in place — not to its own
pre-dispatch URL. -/
theorem outermost_dispatch_roundtrip (m : Mount) (hg : GoodHandler (.mount m))
    (req : Request) :
    (req.extensions = none → (handle (.mount m) req).1 = req)
    ∧ (∀ u e, req.extensions = some u →
        m.inner.get_ancestor (trimKey req.url.path) = some e →
        (handle (.mount m) req).1.url = u
        ∧ (handle (.mount m) req).1.extensions = some u) := by
  constructor
  · intro hre
    cases hma : m.inner.get_ancestor (trimKey req.url.path) with
    | none => rw [handle_mount_nomatch m req hma]
    | some matched =>
      have hgm : GoodHandler matched.handler := by
        cases hg with
        | mount m2 hall => exact hall _ _ hma
      have ihm := handle_good (sizeOf matched.handler) matched.handler le_rfl hgm
        (enterReq req matched.length)
      rw [handle_mount_matched m req matched hma]
      rcases hres : handle matched.handler (enterReq req matched.length) with ⟨r3, res⟩
      rw [hres] at ihm
      obtain ⟨ihm1, ihm2⟩ := ihm
      simp only at ihm1 ihm2
      have hr3 : r3.extensions = some req.url := by
        rw [ihm1, enterReq_eq]
        simp [hre]
      rw [afterHandler_some _ _ _ ihm2 _ hr3, hre]
      simp only [Option.isNone_none, if_pos]
      cases req with
      | mk u ext =>
        simp only at hre
        subst hre
        rfl
  · intro u matched hre hma
    have hgm : GoodHandler matched.handler := by
      cases hg with
      | mount m2 hall => exact hall _ _ hma
    have ihm := handle_good (sizeOf matched.handler) matched.handler le_rfl hgm
      (enterReq req matched.length)
    rw [handle_mount_matched m req matched hma]
    rcases hres : handle matched.handler (enterReq req matched.length) with ⟨r3, res⟩
    rw [hres] at ihm
    obtain ⟨ihm1, ihm2⟩ := ihm
    simp only at ihm1 ihm2
    have hr3 : r3.extensions = some u := by
      rw [ihm1, enterReq_eq]
      simp [hre]
    rw [afterHandler_some _ _ _ ihm2 _ hr3, hre]
    simp only [Option.isNone_some, if_neg]
    exact ⟨rfl, hr3⟩

/-- C3 witness: the single-level table `/b`, request `["b"]`, no attachment. -/
theorem outermost_dispatch_roundtrip_witness :
    (handle (.mount mInner3) reqB).1 = reqB :=
  (outermost_dispatch_roundtrip mInner3 good_mInner3 reqB).1 rfl

/-- C4: every dispatch over well-behaved handlers returns with the
`OriginalUrl` slot holding exactly what it held at entry: the outermost
invocation (which observed the slot empty and filled it) removes the
attachment it created, so none remains once it returns, while every nested
invocation reads the attachment but leaves it in place.  Since the slot
holds at most one value, at most one attachment is ever live per request. -/
theorem original_url_single_owner (h : Handler) (hg : GoodHandler h) (req : Request) :
    (handle h req).1.extensions = req.extensions :=
  (handle_good (sizeOf h) h le_rfl hg req).1

/-- C4 witness: the nested table `/a ↦ (mount /b)` on request `/a/b/c`. -/
theorem original_url_single_owner_witness :
    (handle (.mount mOuter3) req3x).1.extensions = req3x.extensions :=
  original_url_single_owner (.mount mOuter3) good_mOuter3 req3x

/-- C5: nested mounts.  When the outer table maps the matched prefix of the
request path (key length `len1`) to an inner `Mount`, the inner table maps
the matched prefix of the once-rewritten path (key length `len2`) to a base
handler `f`, and the request arrives with no `OriginalUrl` attached, then
dispatch through the outer mount invokes `f` on the request path with both
prefixes removed (`drop (len1 + len2)`), and the `OriginalUrl` attachment
visible at the innermost point — as at every depth in between — is exactly
the true original URL of the request. -/
theorem nested_mounts_strip_both (mo mi : Mount)
    (f : Request → Request × HandleResult) (len1 len2 : Nat) (req : Request)
    (h1 : mo.inner.get_ancestor (trimKey req.url.path) = some (.mk (.mount mi) len1))
    (h2 : mi.inner.get_ancestor (trimKey (req.url.path.drop len1))
        = some (.mk (.base f) len2))
    (hext : req.extensions = none) :
    handle (.mount mo) req =
      afterHandler true (afterHandler false
        (f ⟨{ req.url with path := req.url.path.drop (len1 + len2) }, some req.url⟩))
    ∧ (enterReq req len1).extensions = some req.url := by
  have hereq : enterReq req len1
      = ⟨{ req.url with path := req.url.path.drop len1 }, some req.url⟩ := by
    rw [enterReq_eq, hext]
    rfl
  constructor
  · rw [handle_mount_matched mo req (.mk (.mount mi) len1) h1,
        show (MatchEntry.mk (.mount mi) len1).handler = Handler.mount mi from rfl,
        show (MatchEntry.mk (.mount mi) len1).length = len1 from rfl,
        hext, hereq]
    have h2' : mi.inner.get_ancestor (trimKey
        ((⟨{ req.url with path := req.url.path.drop len1 }, some req.url⟩ : Request).url.path))
        = some (.mk (.base f) len2) := h2
    rw [handle_mount_matched mi _ (.mk (.base f) len2) h2',
        show (MatchEntry.mk (.base f) len2).handler = Handler.base f from rfl,
        show (MatchEntry.mk (.base f) len2).length = len2 from rfl,
        handle_base]
    have hinner : enterReq
        (⟨{ req.url with path := req.url.path.drop len1 }, some req.url⟩ : Request) len2
        = ⟨{ req.url with path := req.url.path.drop (len1 + len2) }, some req.url⟩ := by
      rw [enterReq_eq]
      simp [List.drop_drop]
    rw [hinner]
    rfl
  · rw [hereq]

/-- C5 witness: `/a ↦ (mount /b ↦ handler)` on request `/a/b/c`. -/
theorem nested_mounts_strip_both_witness :
    (handle (.mount mOuter3) req3x =
        afterHandler true (afterHandler false
          (fDeep ⟨{ req3x.url with path := req3x.url.path.drop (1 + 1) },
            some req3x.url⟩))
     ∧ (enterReq req3x 1).extensions = some req3x.url) :=
  nested_mounts_strip_both mOuter3 mInner3 fDeep 1 1 req3x rfl rfl rfl

/-- C6: a trailing separator never defeats matching: the trimming step
drops a trailing empty segment whenever the path is non-empty with an empty
final segment, and since route keys never contain empty segments, the
lookup for a registered route's key followed by the trailing-slash marker
is identical to the lookup for the key itself, on every table. -/
theorem trailing_separator_matches_same (t : Trie) (route : String) :
    (∀ p : List String, p ≠ [] → p.getLast? = some "" → trimKey p = p.dropLast)
    ∧ trimKey (routeKey route ++ [""]) = routeKey route
    ∧ t.get_ancestor (trimKey (routeKey route ++ [""]))
        = t.get_ancestor (trimKey (routeKey route)) := by
  refine ⟨?_, trimKey_concat_empty _, ?_⟩
  · intro p hne hlast
    unfold trimKey
    rw [hlast]
    dsimp only
    rw [if_pos rfl]
  · rw [trimKey_concat_empty, trimKey_no_empty _ (routeKey_ne_empty route)]

/-- C7 counterexample: returning NoMatch is not equivalent to "no
registered key is a prefix of the trimmed path".  With the nested tables
`/a ↦ (mount /b)`, the request `["a","x"]` matches the registered key `/a`
(the lookup succeeds), yet dispatch returns NoMatch, because the inner
mount found nothing for `["x"]` and its error passes through verbatim. -/
theorem nomatch_iff_no_prefix_cex :
    mOuter3.inner.get_ancestor (trimKey reqAX.url.path) ≠ none
    ∧ handle (.mount mOuter3) reqAX = (reqAX, .err .noMatch) := by
  constructor
  · intro hcon
    rw [show mOuter3.inner.get_ancestor (trimKey reqAX.url.path)
        = some (.mk (.mount mInner3) 1) from rfl] at hcon
    cases hcon
  · rw [handle_mount_matched mOuter3 reqAX (.mk (.mount mInner3) 1) rfl,
        show (MatchEntry.mk (.mount mInner3) 1).handler = Handler.mount mInner3 from rfl,
        show (MatchEntry.mk (.mount mInner3) 1).length = 1 from rfl,
        handle_mount_nomatch mInner3 (enterReq reqAX 1) rfl]
    rfl

/-- C7 (amended): the dispatcher originates NoMatch exactly in the no-match
branch: when no prefix of the trimmed request path holds an entry
(equivalently, the ancestor lookup fails), dispatch returns NoMatch with
the request untouched and no handler invoked; when a match exists, the
returned result component is the matched handler's own result verbatim
(or the internal missing-`OriginalUrl` panic), so a NoMatch surfacing then
was originated by the handler, not by this dispatcher. -/
theorem nomatch_only_without_prefix (m : Mount) (req : Request) :
    ((∀ p, p <+: trimKey req.url.path → m.inner.get p = none) →
        handle (.mount m) req = (req, .err .noMatch))
    ∧ (∀ e, m.inner.get_ancestor (trimKey req.url.path) = some e →
        (handle (.mount m) req).2 = (handle e.handler (enterReq req e.length)).2
        ∨ ∃ msg, (handle (.mount m) req).2 = .panicked msg) := by
  constructor
  · intro hall
    exact handle_mount_nomatch m req ((get_ancestor_none_iff _ _).mpr hall)
  · intro e hma
    rw [handle_mount_matched m req e hma]
    rcases hres : handle e.handler (enterReq req e.length) with ⟨r3, res⟩
    cases res with
    | panicked msg =>
      right
      exact ⟨msg, by rw [afterHandler_panicked]⟩
    | ok resp =>
      cases hr3 : r3.extensions with
      | some o =>
        left
        rw [afterHandler_some _ _ _ (fun msg hcon => by cases hcon) _ hr3]
      | none =>
        right
        exact ⟨_, by rw [afterHandler_missing _ _ _ (fun msg hcon => by cases hcon) hr3]⟩
    | err er =>
      cases hr3 : r3.extensions with
      | some o =>
        left
        rw [afterHandler_some _ _ _ (fun msg hcon => by cases hcon) _ hr3]
      | none =>
        right
        exact ⟨_, by rw [afterHandler_missing _ _ _ (fun msg hcon => by cases hcon) hr3]⟩

/-- C8: registering twice at routes whose strings normalize to the same
segment key leaves the mount table exactly as if only the second
registration had happened — so the first handler is unreachable everywhere
and any dispatch resolving that key runs the second handler — registration
of the duplicate raises no error (`mount` is a total function), and the key
now holds the second handler with the key's segment count. -/
theorem duplicate_registration_overwrites (m : Mount) (r1 r2 : String)
    (h1 h2 : Handler) (hkey : routeKey r1 = routeKey r2) :
    (m.mount r1 h1).mount r2 h2 = m.mount r2 h2
    ∧ ((m.mount r1 h1).mount r2 h2).inner.get (routeKey r2)
        = some (.mk h2 (routeKey r2).length) := by
  have hm : (m.mount r1 h1).mount r2 h2 = m.mount r2 h2 := by
    show Mount.mk _ = Mount.mk _
    unfold Mount.mount
    dsimp only [Mount.inner]
    rw [hkey, insert_insert]
  refine ⟨hm, ?_⟩
  rw [hm]
  show (m.inner.insert (routeKey r2) (.mk h2 (routeKey r2).length)).get (routeKey r2)
      = some (.mk h2 (routeKey r2).length)
  exact get_insert _ _ _

/-- C8 witness: `/x/` and `/x` normalize to the same key `["x"]`. -/
theorem duplicate_registration_overwrites_witness :
    ((Mount.new.mount "/x/" hX1).mount "/x" hX2 = Mount.new.mount "/x" hX2
     ∧ ((Mount.new.mount "/x/" hX1).mount "/x" hX2).inner.get (routeKey "/x")
         = some (.mk hX2 (routeKey "/x").length)) :=
  duplicate_registration_overwrites Mount.new "/x/" "/x" hX1 hX2 rfl

/-- C9: when the matched handler returns normally but the `OriginalUrl`
attachment is gone at restore time, the dispatcher aborts with the source's
panic message instead of returning a result; under the invariant that
handlers leave the attachment alone (`GoodHandler`), no dispatch ever
panics, so the branch is unreachable; and concretely, a handler that strips
the attachment does drive dispatch into the abort. -/
theorem missing_original_url_panics :
    (∀ (m : Mount) (req : Request) (e : MatchEntry) (r3 : Request) (res : HandleResult),
        m.inner.get_ancestor (trimKey req.url.path) = some e →
        handle e.handler (enterReq req e.length) = (r3, res) →
        (∀ msg, res ≠ .panicked msg) →
        r3.extensions = none →
        (handle (.mount m) req).2
          = .panicked "OriginalUrl unexpectedly removed from req.extensions.")
    ∧ (∀ (h : Handler) (req : Request), GoodHandler h →
        ∀ msg, (handle h req).2 ≠ .panicked msg)
    ∧ (handle (.mount mClear) reqClear).2
        = .panicked "OriginalUrl unexpectedly removed from req.extensions." := by
  have habort : ∀ (m : Mount) (req : Request) (e : MatchEntry) (r3 : Request)
      (res : HandleResult),
      m.inner.get_ancestor (trimKey req.url.path) = some e →
      handle e.handler (enterReq req e.length) = (r3, res) →
      (∀ msg, res ≠ .panicked msg) →
      r3.extensions = none →
      (handle (.mount m) req).2
        = .panicked "OriginalUrl unexpectedly removed from req.extensions." := by
    intro m req e r3 res hma hres hnp hr3
    rw [handle_mount_matched m req e hma, hres, afterHandler_missing _ _ _ hnp hr3]
  refine ⟨habort, fun h req hg => (handle_good (sizeOf h) h le_rfl hg req).2, ?_⟩
  refine habort mClear reqClear (.mk hClear 1)
    ⟨⟨"http", "localhost", [], none⟩, none⟩ (.ok ⟨0, "cleared"⟩) rfl ?_
    (fun msg hcon => by cases hcon) rfl
  show handle (Handler.base fClear) (enterReq reqClear 1) = _
  rw [handle_base]
  rfl

end MountSpec
